import Mathlib

/-!
Verification of the logicrepo rule-engine core: a shallow embedding of
`src/evaluator.ts` and `src/runner.ts` (condition matcher, rule evaluator,
expectation comparer), with theorems settling the specification claims.

Modelling conventions:
* JavaScript runtime values are `Value`; `Value.vUndefined` is the `undefined`
  value that a property read yields for a missing key, and `Value.vNull`
  is the explicit `null`.  Numbers are modelled as `Int` (every numeric
  literal appearing in rules and claims is an integer).
* JavaScript objects are association lists `List (String × Value)` with
  distinct keys, in insertion order.
* `===` is `strictEq`; two distinct non-primitive values are never the
  same reference in this program (conditions come from parsed YAML and
  inputs from a separate parsed YAML), so `strictEq` on compound values
  is `false`.
-/

namespace LogicRepo

/-- A JSON-like JavaScript runtime value as produced by the YAML loader,
plus `vUndefined` for the `undefined` value read from a missing key. -/
inductive Value where
  | vUndefined : Value
  | vNull : Value
  | vBool (b : Bool) : Value
  | vNum (n : Int) : Value
  | vStr (s : String) : Value
  | vArr (elems : List Value) : Value
  | vObj (fields : List (String × Value)) : Value

/-- A JavaScript object: an association list in insertion order. -/
abbrev Obj := List (String × Value)

/-- The JavaScript `typeof` operator on `Value` (note `typeof null` is
the string "object", as are arrays and plain objects). -/
def typeofV : Value → String
  | .vUndefined => "undefined"
  | .vNull => "object"
  | .vBool _ => "boolean"
  | .vNum _ => "number"
  | .vStr _ => "string"
  | .vArr _ => "object"
  | .vObj _ => "object"

/-- JavaScript strict equality `===`.  Primitives compare by value with no
type coercion; arrays and objects compare by reference, and the engine
never compares aliased references (condition values and input values come
from separate parse trees), so compound values compare unequal. -/
def strictEq : Value → Value → Bool
  | .vUndefined, .vUndefined => true
  | .vNull, .vNull => true
  | .vBool a, .vBool b => a == b
  | .vNum a, .vNum b => a == b
  | .vStr a, .vStr b => a == b
  | _, _ => false

/-- Property read `input[field]` on an object: the stored value, or the
`undefined` value when the key is missing. -/
def getField (input : Obj) (field : String) : Value :=
  match input.lookup field with
  | some v => v
  | none => .vUndefined

/-- JavaScript truthiness, used by `runTest` for `ruleType ? ... : ...`:
`undefined`, `null`, `false`, `0` and the empty string are falsy. -/
def truthy : Value → Bool
  | .vUndefined => false
  | .vNull => false
  | .vBool b => b
  | .vNum n => n != 0
  | .vStr s => s != ""
  | .vArr _ => true
  | .vObj _ => true

/-- The `ComparisonOperator` interface of `types.ts`: up to four optional
numeric bounds. -/
structure ComparisonOperator where
  gte : Option Int
  lte : Option Int
  gt : Option Int
  lt : Option Int

/-- `isComparisonOperator` of `evaluator.ts` demands at least one of the
four bound keys be present on the object. -/
def ComparisonOperator.hasBound (op : ComparisonOperator) : Bool :=
  op.gte.isSome || op.lte.isSome || op.gt.isSome || op.lt.isSome

/-- The `ConditionValue` union of `types.ts`: a scalar exact-match
constraint (string, number, boolean — and, from YAML, null), a
comparison-operator object, or an `in` set-membership object. -/
inductive ConditionValue where
  | scalar (v : Value) : ConditionValue
  | cmp (op : ComparisonOperator) : ConditionValue
  | inOp (elems : List Value) : ConditionValue

/-- The `Condition` type of `types.ts`: non-reserved field constraints,
plus the reserved `all` and `any` keys.  `none` for `all`/`any` covers
both an absent key and a malformed (non-array) value, which
`matchConditions` treats identically (`Array.isArray` guard). -/
inductive Condition where
  | mk (fields : List (String × ConditionValue))
      (allC : Option (List Condition))
      (anyC : Option (List Condition)) : Condition

/-- `compareValue` (`evaluator.ts` lines 150-159): fails unless the actual
value is a number, then every present bound must hold. -/
def compareValue (actual : Value) (operator : ComparisonOperator) : Bool :=
  match actual with
  | .vNum n =>
      (match operator.gte with | some b => decide (n ≥ b) | none => true)
      && (match operator.lte with | some b => decide (n ≤ b) | none => true)
      && (match operator.gt with | some b => decide (n > b) | none => true)
      && (match operator.lt with | some b => decide (n < b) | none => true)
  | _ => false

/-- `checkInOperator` (`evaluator.ts` lines 161-163):
`operator.in.includes(actual)`, i.e. some element is strictly equal to
the actual value (SameValueZero coincides with `===` here: no NaN). -/
def checkInOperator (actual : Value) (elems : List Value) : Bool :=
  elems.any fun e => strictEq e actual

/-- `matchCondition` (`evaluator.ts` lines 165-181): dispatch on the
shape of the constraint; otherwise exact match under strict equality. -/
def matchCondition (condition : ConditionValue) (actual : Value) : Bool :=
  match condition with
  | .cmp op => compareValue actual op
  | .inOp elems => checkInOperator actual elems
  | .scalar v => strictEq actual v

mutual

/-- `matchConditions` (`evaluator.ts` lines 183-212): every non-reserved
field constraint must match the input; if `all` holds an array, every
nested tree must match; if `any` holds an array, at least one nested tree
must match; otherwise the tree matches (an empty tree is the catch-all). -/
def matchConditions : Condition → Obj → Bool
  | .mk fields allC anyC, input =>
    (fields.all fun fc => matchCondition fc.2 (getField input fc.1))
      && (match allC with
          | some cs => matchAll cs input
          | none => true)
      && (match anyC with
          | some cs => matchAny cs input
          | none => true)

/-- `conditions.all.every((c) => matchConditions(c, input))`. -/
def matchAll : List Condition → Obj → Bool
  | [], _ => true
  | c :: cs, input => matchConditions c input && matchAll cs input

/-- `conditions.any.some((c) => matchConditions(c, input))`. -/
def matchAny : List Condition → Obj → Bool
  | [], _ => false
  | c :: cs, input => matchConditions c input || matchAny cs input

end

/-- The `Rule` interface of `types.ts` (the optional `description` plays
no part in evaluation and is omitted). -/
structure Rule where
  id : String
  «when» : Condition
  «then» : Obj

/-- The `EvaluationResult` interface of `types.ts`; `matched_rule` is
`none` for JavaScript `null`. -/
structure EvaluationResult where
  matched_rule : Option String
  output : Obj

/-- `evaluate` (`evaluator.ts` lines 214-233): first match wins; the
returned output is `{ ...rule.then }`, a shallow copy of the matched
rule's declared output; if no rule matches, a null sentinel with an
empty output. -/
def evaluate : List Rule → Obj → EvaluationResult
  | [], _ => { matched_rule := none, output := [] }
  | rule :: rest, input =>
    if matchConditions rule.«when» input then
      { matched_rule := some rule.id, output := rule.«then» }
    else
      evaluate rest input

/-- The condition used by the range-composition claim:
`{q: {gte: 10, lte: 100}}`. -/
def qRangeCondition : Condition :=
  .mk [("q", .cmp ⟨some 10, some 100, none, none⟩)] none none

/-- The entirely empty condition tree `{}`: no plain fields, no `all`,
no `any`. -/
def emptyCondition : Condition := .mk [] none none

/-- C1: for every rule list and input, `evaluate` returns, for the first
rule in list order whose condition satisfies the matcher, that rule's id
together with (a shallow copy of) its declared output, and the
`{matched_rule: null, output: {}}` sentinel when no rule matches. -/
theorem evaluate_first_match_wins (rules : List Rule) (input : Obj) :
    evaluate rules input =
      match rules.find? (fun r => matchConditions r.«when» input) with
      | some r => { matched_rule := some r.id, output := r.«then» }
      | none => { matched_rule := none, output := [] } := by
  induction rules with
  | nil => simp [evaluate]
  | cons r rest ih =>
    by_cases h : matchConditions r.«when» input
    · simp [evaluate, List.find?, h]
    · simp only [Bool.not_eq_true] at h
      simp [evaluate, List.find?, h, ih]

/-- Unfolding lemma: the `any` loop is `List.any` of the recursive match. -/
theorem matchAny_eq_any (cs : List Condition) (input : Obj) :
    matchAny cs input = cs.any fun c => matchConditions c input := by
  induction cs with
  | nil => simp [matchAny]
  | cons c cs ih => simp [matchAny, ih]

/-- Unfolding lemma: the `all` loop is `List.all` of the recursive match. -/
theorem matchAll_eq_all (cs : List Condition) (input : Obj) :
    matchAll cs input = cs.all fun c => matchConditions c input := by
  induction cs with
  | nil => simp [matchAll]
  | cons c cs ih => simp [matchAll, ih]

/-- C2: scalar exact-match and `in` set-membership both use strict
equality with no type coercion: a number constraint never matches any
string, a null constraint matches exactly the present-and-null value
(a missing key reads as undefined, which is distinct from null), and
each element of an `in` list is compared independently, so
`{status: {in: ["active", 1, true]}}` matches `status: true` but not
`status: "true"`. -/
theorem strict_equality_no_coercion :
    (∀ (n : Int) (s : String),
      matchCondition (.scalar (.vNum n)) (.vStr s) = false)
    ∧ (∀ v : Value, matchCondition (.scalar .vNull) v = true ↔ v = .vNull)
    ∧ matchConditions (.mk [("field", .scalar (.vNum 100))] none none)
        [("field", .vStr "100")] = false
    ∧ matchConditions (.mk [("field", .scalar .vNull)] none none) [] = false
    ∧ matchConditions (.mk [("field", .scalar .vNull)] none none)
        [("field", .vNull)] = true
    ∧ matchConditions
        (.mk [("status", .inOp [.vStr "active", .vNum 1, .vBool true])] none none)
        [("status", .vBool true)] = true
    ∧ matchConditions
        (.mk [("status", .inOp [.vStr "active", .vNum 1, .vBool true])] none none)
        [("status", .vStr "true")] = false := by
  refine ⟨?_, ?_, ?_, ?_, ?_, ?_, ?_⟩
  · intro n s; simp [matchCondition, strictEq]
  · intro v; cases v <;> simp [matchCondition, strictEq]
  · simp [matchConditions, matchCondition, getField, strictEq]
  · simp [matchConditions, matchCondition, getField, strictEq, List.lookup]
  · simp [matchConditions, matchCondition, getField, strictEq]
  · simp [matchConditions, matchCondition, getField, strictEq, checkInOperator]
  · simp [matchConditions, matchCondition, getField, strictEq, checkInOperator]

/-- C3: a comparison-operator constraint (with at least one bound key, as
`isComparisonOperator` requires) fails whenever the actual value is not a
number, and on a number it holds exactly when every present bound holds;
`{q: {gte: 10, lte: 100}}` accepts `q: 10` and rejects `q: 9`, `q: 101`,
a numeric string, null, and a missing field. -/
theorem comparison_operator_bounds :
    (∀ (op : ComparisonOperator) (v : Value), op.hasBound = true →
        typeofV v ≠ "number" → matchCondition (.cmp op) v = false)
    ∧ (∀ (op : ComparisonOperator) (n : Int), op.hasBound = true →
        (matchCondition (.cmp op) (.vNum n) = true ↔
          ((∀ b, op.gte = some b → b ≤ n) ∧ (∀ b, op.lte = some b → n ≤ b)
            ∧ (∀ b, op.gt = some b → b < n) ∧ (∀ b, op.lt = some b → n < b))))
    ∧ matchConditions qRangeCondition [("q", .vNum 10)] = true
    ∧ matchConditions qRangeCondition [("q", .vNum 9)] = false
    ∧ matchConditions qRangeCondition [("q", .vNum 101)] = false
    ∧ matchConditions qRangeCondition [("q", .vStr "50")] = false
    ∧ matchConditions qRangeCondition [("q", .vNull)] = false
    ∧ matchConditions qRangeCondition [] = false := by
  refine ⟨?_, ?_, ?_, ?_, ?_, ?_, ?_, ?_⟩
  · intro op v _ hv
    cases v <;> simp_all [matchCondition, compareValue, typeofV]
  · rintro ⟨g, l, gt0, lt0⟩ n _
    cases g <;> cases l <;> cases gt0 <;> cases lt0 <;>
      simp [matchCondition, compareValue] <;> omega
  · simp [qRangeCondition, matchConditions, matchCondition, compareValue, getField]
  · simp [qRangeCondition, matchConditions, matchCondition, compareValue, getField]
  · simp [qRangeCondition, matchConditions, matchCondition, compareValue, getField]
  · simp [qRangeCondition, matchConditions, matchCondition, compareValue, getField]
  · simp [qRangeCondition, matchConditions, matchCondition, compareValue, getField]
  · simp [qRangeCondition, matchConditions, matchCondition, compareValue, getField,
      List.lookup]

/-- C3 witness: the general clauses of `comparison_operator_bounds`
applied at the concrete operator `{gte: 10, lte: 100}`. -/
theorem comparison_operator_bounds_witness :
    matchCondition (.cmp ⟨some 10, some 100, none, none⟩) (.vStr "x") = false :=
  comparison_operator_bounds.1 ⟨some 10, some 100, none, none⟩ (.vStr "x")
    (by rfl) (by decide)

/-- C5 counterexample: a condition tree whose `any` sequence is empty,
with no other constraints at all (so every other constraint is
satisfied), does NOT match: `[].some(...)` is false, so the code rejects
the tree, where the claim says it matches. -/
theorem empty_any_rejects :
    matchConditions (.mk [] none (some [])) [] = false := by
  simp [matchConditions, matchAny]

/-- C5 amended: an `any` key holding a sequence makes the tree match only
if the rest of the tree matches and some nested tree matches — so an
empty `any` sequence always rejects; an absent (or malformed, hence
`none`) `any` key imposes no additional constraint. -/
theorem any_clause_semantics :
    (∀ (fs : List (String × ConditionValue)) (al : Option (List Condition))
        (anys : List Condition) (input : Obj),
      matchConditions (.mk fs al (some anys)) input
        = (matchConditions (.mk fs al none) input
            && anys.any fun c => matchConditions c input))
    ∧ (∀ (fs : List (String × ConditionValue)) (al : Option (List Condition))
        (input : Obj),
      matchConditions (.mk fs al (some [])) input = false) := by
  have h1 : ∀ (fs : List (String × ConditionValue)) (al : Option (List Condition))
      (anys : List Condition) (input : Obj),
      matchConditions (.mk fs al (some anys)) input
        = (matchConditions (.mk fs al none) input
            && anys.any fun c => matchConditions c input) := by
    intro fs al anys input
    cases al <;> simp [matchConditions, matchAny_eq_any, Bool.and_assoc]
  have h2 : ∀ (fs : List (String × ConditionValue)) (al : Option (List Condition))
      (input : Obj),
      matchConditions (.mk fs al (some [])) input = false := by
    intro fs al input
    rw [h1]
    simp
  exact ⟨h1, h2⟩

/-- C7: the entirely empty condition tree matches every input, so a rule
with an empty condition placed last matches whenever no earlier rule
does, and when an earlier rule matches the catch-all changes nothing
(the earlier rule still fires). -/
theorem empty_condition_catch_all :
    (∀ input : Obj, matchConditions emptyCondition input = true)
    ∧ (∀ (rs : List Rule) (ca : Rule) (input : Obj), ca.«when» = emptyCondition →
        ((∀ r ∈ rs, matchConditions r.«when» input = false) →
          evaluate (rs ++ [ca]) input
            = { matched_rule := some ca.id, output := ca.«then» })
        ∧ ((∃ r ∈ rs, matchConditions r.«when» input = true) →
          evaluate (rs ++ [ca]) input = evaluate rs input)) := by
  have hempty : ∀ input : Obj, matchConditions emptyCondition input = true := by
    intro input; simp [matchConditions, emptyCondition]
  refine ⟨hempty, ?_⟩
  intro rs ca input hca
  induction rs with
  | nil =>
    constructor
    · intro _
      simp [evaluate, hca, hempty]
    · rintro ⟨r, hr, -⟩
      simp at hr
  | cons r rest ih =>
    constructor
    · intro hnone
      have hr : matchConditions r.«when» input = false := hnone r (by simp)
      have hrest : ∀ x ∈ rest, matchConditions x.«when» input = false := by
        intro x hx; exact hnone x (by simp [hx])
      simp [evaluate, hr, (ih).1 hrest]
    · rintro ⟨x, hx, hxm⟩
      rcases List.mem_cons.mp hx with hx | hx
      · subst hx
        simp [evaluate, hxm]
      · by_cases hr : matchConditions r.«when» input = true
        · simp [evaluate, hr]
        · simp only [Bool.not_eq_true] at hr
          simp [evaluate, hr, (ih).2 ⟨x, hx, hxm⟩]

/-- The two rules of the comparer tie-break scenario: `A` fires on
`tier = vip`, `B` is the catch-all. -/
def ruleA : Rule := ⟨"A", .mk [("tier", .scalar (.vStr "vip"))] none none, []⟩

/-- The catch-all rule `B` of the comparer tie-break scenario. -/
def ruleB : Rule := ⟨"B", emptyCondition, []⟩

/-- C7 witness: `empty_condition_catch_all` applied to the concrete list
`[A, B]`: on `tier: enterprise` nothing before the catch-all matches and
`B` fires; on `tier: vip` the earlier rule `A` masks the catch-all. -/
theorem empty_condition_catch_all_witness :
    evaluate [ruleA, ruleB] [("tier", .vStr "enterprise")]
      = { matched_rule := some "B", output := [] }
    ∧ evaluate [ruleA, ruleB] [("tier", .vStr "vip")]
      = evaluate [ruleA] [("tier", .vStr "vip")] := by
  have h := empty_condition_catch_all
  constructor
  · have := (h.2 [ruleA] ruleB [("tier", .vStr "enterprise")] rfl).1
    have hA : ∀ r ∈ [ruleA], matchConditions r.«when» [("tier", .vStr "enterprise")] = false := by
      intro r hr
      simp only [List.mem_singleton] at hr
      subst hr
      simp [ruleA, matchConditions, matchCondition, getField, strictEq]
    simpa [ruleB] using this hA
  · have := (h.2 [ruleA] ruleB [("tier", .vStr "vip")] rfl).2
    exact this ⟨ruleA, by simp, by
      simp [ruleA, matchConditions, matchCondition, getField, strictEq]⟩

/-- Top-level property read `rule.when.rule_type`: the constraint stored
under the key among the plain fields (the reserved `all`/`any` keys never
carry the discriminator name). -/
def condLookup : Condition → String → Option ConditionValue
  | .mk fields _ _, key => fields.lookup key

/-- The filter test `rule.when.rule_type === ruleType` of
`evaluateByType`: an absent key (undefined read) or an operator object is
never strictly equal to the discriminator value; a scalar constraint
compares by strict equality. -/
def condValueEqVal : Option ConditionValue → Value → Bool
  | some (.scalar v), w => strictEq v w
  | _, _ => false

/-- `evaluateByType` (`evaluator.ts` lines 239-251) as executed by the
JavaScript runtime, where the `ruleType: string` annotation is erased and
`runTest` may pass any truthy value: filter the rules whose top-level
`rule_type` constraint is strictly equal to the discriminator value, then
delegate to `evaluate` on the order-preserved subsequence. -/
def evaluateByTypeV (rules : List Rule) (ruleType : Value) (input : Obj) :
    EvaluationResult :=
  evaluate
    (rules.filter fun rule => condValueEqVal (condLookup rule.«when» "rule_type") ruleType)
    input

/-- `evaluateByType` at its TypeScript signature: the discriminator is a
string. -/
def evaluateByType (rules : List Rule) (ruleType : String) (input : Obj) :
    EvaluationResult :=
  evaluateByTypeV rules (.vStr ruleType) input

/-- Modelled from the spec wording, for the refinement comparison of C6:
keep exactly the rules whose condition has a top-level constraint on the
discriminator field equal to the given discriminator string. -/
def specTypeFilter (rules : List Rule) (d : String) : List Rule :=
  rules.filter fun r =>
    match condLookup r.«when» "rule_type" with
    | some (.scalar (.vStr s)) => s == d
    | _ => false

/-- C6: `evaluateByType` equals plain `evaluate` on the order-preserved
subsequence of rules whose condition constrains the discriminator field
to the given value at top level; every rule kept by the filter does
constrain the discriminator field (rules without a top-level `rule_type`
constraint are excluded). -/
theorem evaluateByType_scopes_rules :
    (∀ (rules : List Rule) (d : String) (input : Obj),
      evaluateByType rules d input = evaluate (specTypeFilter rules d) input)
    ∧ (∀ (rules : List Rule) (d : String),
      ((specTypeFilter rules d).all fun r =>
        (condLookup r.«when» "rule_type").isSome) = true) := by
  constructor
  · intro rules d input
    have hpred : ∀ r : Rule,
        condValueEqVal (condLookup r.«when» "rule_type") (.vStr d)
          = match condLookup r.«when» "rule_type" with
            | some (.scalar (.vStr s)) => s == d
            | _ => false := by
      intro r
      rcases h : condLookup r.«when» "rule_type" with - | cv
      · simp [condValueEqVal]
      · rcases cv with v | op | elems
        · cases v <;> simp [condValueEqVal, strictEq]
        · simp [condValueEqVal]
        · simp [condValueEqVal]
    unfold evaluateByType evaluateByTypeV specTypeFilter
    congr 1
    exact List.filter_congr fun r _ => hpred r
  · intro rules d
    rw [List.all_eq_true]
    intro r hr
    have := (List.mem_filter.mp hr).2
    revert this
    rcases condLookup r.«when» "rule_type" with - | cv
    · simp
    · rcases cv with v | op | elems <;> simp

/-- `Object.keys`: field names of an object in insertion order; the index
strings of an array; empty for primitives. -/
def keysOf : Value → List String
  | .vObj fs => fs.map Prod.fst
  | .vArr xs => (List.range xs.length).map fun i => toString i
  | _ => []

/-- Property read `v[key]` on a compound value: the object field, or the
array element whose index string is the key; the undefined value when the
key is absent. -/
def getKey : Value → String → Value
  | .vObj fs, key => (fs.lookup key).getD .vUndefined
  | .vArr xs, key =>
      match (List.range xs.length).find? (fun i => toString i == key) with
      | some i => xs.getD i .vUndefined
      | none => .vUndefined
  | _, _ => .vUndefined

mutual

/-- `deepEqual` (`runner.ts` lines 9-31): strict equality first, then a
type check, then the null guard, then — for two non-null values of type
"object", which in JavaScript includes both arrays and plain objects —
same number of own keys, every key of the left present on the right, and
recursive equality of the values read under each key. -/
def deepEqual (a b : Value) : Bool :=
  if strictEq a b then true
  else if typeofV a != typeofV b then false
  else if strictEq a .vNull || strictEq b .vNull then false
  else
    match a with
    | .vObj fs =>
        ((keysOf (.vObj fs)).length == (keysOf b).length)
          && deepEqualObjFields fs b
    | .vArr xs =>
        ((keysOf (.vArr xs)).length == (keysOf b).length)
          && deepEqualArrElems 0 xs b
    | _ => false

/-- The key loop of `deepEqual` when the left value is a plain object:
its own keys are its field names. -/
def deepEqualObjFields : List (String × Value) → Value → Bool
  | [], _ => true
  | (key, av) :: rest, b =>
      ((keysOf b).contains key) && deepEqual av (getKey b key)
        && deepEqualObjFields rest b

/-- The key loop of `deepEqual` when the left value is an array: its own
keys are the index strings `0`, `1`, ... in order. -/
def deepEqualArrElems : Nat → List Value → Value → Bool
  | _, [], _ => true
  | i, av :: rest, b =>
      ((keysOf b).contains (toString i)) && deepEqual av (getKey b (toString i))
        && deepEqualArrElems (i + 1) rest b

end

mutual

/-- JavaScript string coercion `String(v)`, as performed by the template
literals in `generateReason`: strings render as themselves, numbers and
booleans and null and undefined as their usual tokens, arrays join their
elements with commas (null and undefined elements render empty), and
plain objects render as the fixed object token. -/
def jsToString : Value → String
  | .vUndefined => "undefined"
  | .vNull => "null"
  | .vBool b => cond b "true" "false"
  | .vNum n => toString n
  | .vStr s => s
  | .vArr xs => jsJoin xs
  | .vObj _ => "[object Object]"

/-- `Array.prototype.join` with the default comma separator, rendering
null and undefined elements as the empty string. -/
def jsJoin : List Value → String
  | [] => ""
  | [.vNull] => ""
  | [.vUndefined] => ""
  | [x] => jsToString x
  | .vNull :: xs => "," ++ jsJoin xs
  | .vUndefined :: xs => "," ++ jsJoin xs
  | x :: xs => jsToString x ++ "," ++ jsJoin xs

end

/-- JSON string escaping for the quote and backslash characters (the
values exercised by rules and tests contain no control characters). -/
def escChar (c : Char) : String :=
  if c == '\\' then "\\\\"
  else if c == '"' then "\\\""
  else String.singleton c

/-- A JSON-quoted string literal. -/
def jsonQuote (s : String) : String :=
  "\"" ++ String.join (s.toList.map escChar) ++ "\""

mutual

/-- `JSON.stringify` as interpolated into the output-mismatch reason of
`generateReason`.  `JSON.stringify(undefined)` is the undefined value,
which the template literal then renders as the text `undefined`; compound
values come from parsed YAML and never contain the undefined value. -/
def jsonStringify : Value → String
  | .vUndefined => "undefined"
  | .vNull => "null"
  | .vBool b => cond b "true" "false"
  | .vNum n => toString n
  | .vStr s => jsonQuote s
  | .vArr xs => "[" ++ jsonArrBody xs ++ "]"
  | .vObj fs => "\x7b" ++ jsonObjBody fs ++ "\x7d"

/-- Comma-separated stringified array elements. -/
def jsonArrBody : List Value → String
  | [] => ""
  | [x] => jsonStringify x
  | x :: xs => jsonStringify x ++ "," ++ jsonArrBody xs

/-- Comma-separated stringified object members. -/
def jsonObjBody : List (String × Value) → String
  | [] => ""
  | [(k, v)] => jsonQuote k ++ ":" ++ jsonStringify v
  | (k, v) :: fs => jsonQuote k ++ ":" ++ jsonStringify v ++ "," ++ jsonObjBody fs

end

/-- The comparison `expected.matched_rule === actual.matched_rule`
between the YAML expectation value and the evaluation result (a rule id
string or null): null equals null, strings compare by value, and nothing
else (in particular the undefined read of a missing key) is equal. -/
def eqMatchedRule : Value → Option String → Bool
  | .vNull, none => true
  | .vStr s, some t => s == t
  | _, _ => false

/-- The output-difference loop of `generateReason` (`runner.ts` lines
66-71): the first expected key whose expected value is not deeply equal
to the value read from the actual output yields the mismatch message. -/
def firstOutputMismatch : List (String × Value) → Obj → Option String
  | [], _ => none
  | (key, expectedValue) :: rest, output =>
    let actualValue := getField output key
    if !(deepEqual expectedValue actualValue) then
      some ("Output mismatch: expected " ++ key ++ "="
        ++ jsonStringify expectedValue ++ ", got " ++ jsonStringify actualValue)
    else
      firstOutputMismatch rest output

/-- `generateReason` (`runner.ts` lines 33-74): if a matched rule was
expected and the actual one differs, diagnose no-match, then a
rule-ordering problem (the actual rule found strictly before the expected
rule in the list, both present), then the generic wrong-rule case;
otherwise report the first mismatching output field (the reserved
matched_rule key removed), with a defensive unknown-mismatch fallback. -/
def generateReason (expected : Obj) (actual : EvaluationResult)
    (rules : List Rule) : String :=
  let expMR := getField expected "matched_rule"
  if !(strictEq expMR .vUndefined) && !(eqMatchedRule expMR actual.matched_rule) then
    match actual.matched_rule with
    | none => "No rule matched the input. Check your rule conditions."
    | some actualId =>
      let expectedRule := rules.find? fun r => strictEq (.vStr r.id) expMR
      let actualRule := rules.find? fun r => r.id == actualId
      if expectedRule.isSome && actualRule.isSome
          && rules.findIdx (fun r => r.id == actualId)
            < rules.findIdx (fun r => strictEq (.vStr r.id) expMR) then
        "Rule \x27" ++ actualId ++ "\x27 matched before \x27"
          ++ jsToString expMR ++ "\x27. Check rule ordering."
      else
        "Expected rule \x27" ++ jsToString expMR ++ "\x27 to match, but \x27"
          ++ actualId ++ "\x27 matched instead."
  else
    match firstOutputMismatch
        (expected.filter fun kv => kv.1 != "matched_rule") actual.output with
    | some reason => reason
    | none => "Unknown mismatch"

/-- The `TestCase` interface of `types.ts`: a named input record and an
expectation object possibly carrying the reserved matched_rule key. -/
structure TestCase where
  name : String
  input : Obj
  expect : Obj

/-- The `TestResult` interface of `types.ts`; `reason` is `none` for an
absent (undefined) field. -/
structure TestResult where
  file : String
  name : String
  passed : Bool
  input : Obj
  expected : Obj
  actual : EvaluationResult
  reason : Option String

/-- `runTest` (`runner.ts` lines 76-121): dispatch on a truthy
`input.rule_type` (the runtime passes the raw value through the erased
string annotation) to the type-filtered evaluation, otherwise plain
`evaluate`; the test passes when the expected matched rule (if declared)
and every declared output field agree with the actual result; a reason is
attached exactly when the test failed. -/
def runTest (test : TestCase) (rules : List Rule) (file : String) : TestResult :=
  let ruleType := getField test.input "rule_type"
  let actual :=
    if truthy ruleType then evaluateByTypeV rules ruleType test.input
    else evaluate rules test.input
  let expectedOutput := test.expect.filter fun kv => kv.1 != "matched_rule"
  let expectedMatchedRule := getField test.expect "matched_rule"
  let matchedRuleCorrect :=
    strictEq expectedMatchedRule .vUndefined
      || eqMatchedRule expectedMatchedRule actual.matched_rule
  let outputCorrect :=
    expectedOutput.all fun kv => deepEqual kv.2 (getField actual.output kv.1)
  let passed := matchedRuleCorrect && outputCorrect
  { file := file
    name := test.name
    passed := passed
    input := test.input
    expected := test.expect
    actual := actual
    reason := if passed then none else some (generateReason test.expect actual rules) }

/-- `runTests` (`runner.ts` lines 123-129): run every test of a file. -/
def runTests (tests : List TestCase) (rules : List Rule) (file : String) :
    List TestResult :=
  tests.map fun test => runTest test rules file

/-- C8 counterexample: the input `{rule_type: ""}` carries a (string)
discriminator value under the rule_type key, yet the comparer evaluates
with plain `evaluate` (the empty string is falsy): the catch-all rule
fires, whereas `evaluateByType` with the carried value would have
filtered every rule out and matched nothing. -/
theorem rule_type_empty_string_uses_plain_evaluate :
    (runTest ⟨"empty discriminator", [("rule_type", .vStr "")], []⟩
        [⟨"r1", emptyCondition, [("x", .vNum 1)]⟩] "f").actual.matched_rule
      = some "r1"
    ∧ (evaluateByType [⟨"r1", emptyCondition, [("x", .vNum 1)]⟩] ""
        [("rule_type", .vStr "")]).matched_rule = none := by
  constructor
  · simp [runTest, truthy, getField, evaluate, matchConditions, emptyCondition,
      matchCondition, strictEq, eqMatchedRule]
  · simp [evaluateByType, evaluateByTypeV, condValueEqVal, condLookup,
      emptyCondition, evaluate, strictEq]

/-- C8 amended: the comparer invokes the type-filtered evaluation exactly
when the input carries a truthy discriminator value under the rule_type
key (for a string discriminator: present and non-empty), and plain
`evaluate` whenever the read value is falsy (missing, null, false, zero,
or the empty string). -/
theorem runTest_dispatch_truthy (test : TestCase) (rules : List Rule)
    (file : String) :
    (∀ s : String, getField test.input "rule_type" = .vStr s → s ≠ "" →
      (runTest test rules file).actual = evaluateByType rules s test.input)
    ∧ (truthy (getField test.input "rule_type") = false →
      (runTest test rules file).actual = evaluate rules test.input) := by
  constructor
  · intro s hs hne
    have ht : truthy (.vStr s) = true := by simp [truthy, hne]
    simp [runTest, hs, ht, evaluateByType]
  · intro hf
    simp [runTest, hf]

/-- C8 witness: `runTest_dispatch_truthy` at a concrete test whose input
carries `rule_type: "pricing"` (truthy branch) and at a concrete test
with no rule_type key (falsy branch). -/
theorem runTest_dispatch_truthy_witness :
    (runTest ⟨"t", [("rule_type", .vStr "pricing")], []⟩ [] "f").actual
      = evaluateByType [] "pricing" [("rule_type", .vStr "pricing")]
    ∧ (runTest ⟨"t", [], []⟩ [] "f").actual = evaluate [] [] := by
  refine ⟨?_, ?_⟩
  · exact (runTest_dispatch_truthy ⟨"t", [("rule_type", .vStr "pricing")], []⟩
      [] "f").1 "pricing" (by rfl) (by decide)
  · exact (runTest_dispatch_truthy ⟨"t", [], []⟩ [] "f").2 (by rfl)

/-- The catch-all rule whose output carries, under `tags`, a plain object
with index-like keys. -/
def rTags : Rule :=
  ⟨"tags_rule", emptyCondition, [("tags", .vObj [("0", .vNum 1), ("1", .vStr "x")])]⟩

/-- The test expecting, under `tags`, an array value with the same
indices and element values as the object produced by `rTags`. -/
def tTags : TestCase :=
  ⟨"array vs object", [], [("tags", .vArr [.vNum 1, .vStr "x"])]⟩

/-- C10: `deepEqual` does not distinguish arrays from plain objects (both
have the JavaScript type "object" and are compared by own key set and
per-key recursive equality), so the expected array `[1, "x"]` compares
equal to the actual object with keys "0" and "1", and the test expecting
the array against a rule producing the object passes. -/
theorem deepEqual_conflates_arrays_and_objects :
    deepEqual (.vArr [.vNum 1, .vStr "x"]) (.vObj [("0", .vNum 1), ("1", .vStr "x")])
      = true
    ∧ typeofV (.vArr [.vNum 1, .vStr "x"])
        = typeofV (.vObj [("0", .vNum 1), ("1", .vStr "x")])
    ∧ (runTest tTags [rTags] "f").passed = true := by
  refine ⟨?_, by rfl, ?_⟩
  · simp [deepEqual, deepEqualArrElems, deepEqualObjFields, keysOf, getKey,
      strictEq, typeofV, List.range_succ]
    decide
  · simp [runTest, tTags, rTags, truthy, getField, evaluate, matchConditions,
      emptyCondition, strictEq, eqMatchedRule, deepEqual, deepEqualArrElems,
      deepEqualObjFields, keysOf, getKey, typeofV, List.range_succ]
    decide

/-- Unfolding lemma: the reason field of a test result is exactly the
generated reason when the test failed, and absent when it passed. -/
theorem runTest_reason_eq (test : TestCase) (rules : List Rule) (file : String) :
    (runTest test rules file).reason
      = if (runTest test rules file).passed then none
        else some (generateReason test.expect (runTest test rules file).actual rules) :=
  rfl

/-- The comparer tie-break scenario: expect rule A on an input that only
the catch-all B matches. -/
def tieBreakTest : TestCase :=
  ⟨"expects A", [("tier", .vStr "enterprise")], [("matched_rule", .vStr "A")]⟩

/-- C4: a failing comparison carries exactly one reason (and none when it
passed), chosen by the first applicable case: no rule matched; wrong rule
matched strictly earlier in the list than the expected rule (both
present) — the ordering diagnosis; wrong rule matched otherwise — the
generic diagnosis; else the first mismatching output field; else the
defensive unknown-mismatch fallback.  In the concrete scenario
`[A (tier=vip), B (catch-all)]` with input `tier: enterprise` and
expected rule A, the actual rule B sits after A, so the generic
diagnosis is chosen, not the ordering one. -/
theorem reason_priority_order :
    (∀ (test : TestCase) (rules : List Rule) (file : String),
      ((runTest test rules file).passed = true →
        (runTest test rules file).reason = none)
      ∧ ((runTest test rules file).passed = false →
        (runTest test rules file).reason
          = some (generateReason test.expect (runTest test rules file).actual rules)))
    ∧ (∀ (expected : Obj) (actual : EvaluationResult) (rules : List Rule),
        strictEq (getField expected "matched_rule") .vUndefined = false →
        eqMatchedRule (getField expected "matched_rule") actual.matched_rule = false →
        actual.matched_rule = none →
        generateReason expected actual rules
          = "No rule matched the input. Check your rule conditions.")
    ∧ (∀ (expected : Obj) (actual : EvaluationResult) (rules : List Rule)
        (actualId : String),
        strictEq (getField expected "matched_rule") .vUndefined = false →
        eqMatchedRule (getField expected "matched_rule") actual.matched_rule = false →
        actual.matched_rule = some actualId →
        ((rules.find? fun r => strictEq (.vStr r.id) (getField expected "matched_rule")).isSome
          && (rules.find? fun r => r.id == actualId).isSome
          && decide (rules.findIdx (fun r => r.id == actualId)
              < rules.findIdx fun r => strictEq (.vStr r.id) (getField expected "matched_rule"))) = true →
        generateReason expected actual rules
          = "Rule \x27" ++ actualId ++ "\x27 matched before \x27"
            ++ jsToString (getField expected "matched_rule") ++ "\x27. Check rule ordering.")
    ∧ (∀ (expected : Obj) (actual : EvaluationResult) (rules : List Rule)
        (actualId : String),
        strictEq (getField expected "matched_rule") .vUndefined = false →
        eqMatchedRule (getField expected "matched_rule") actual.matched_rule = false →
        actual.matched_rule = some actualId →
        ((rules.find? fun r => strictEq (.vStr r.id) (getField expected "matched_rule")).isSome
          && (rules.find? fun r => r.id == actualId).isSome
          && decide (rules.findIdx (fun r => r.id == actualId)
              < rules.findIdx fun r => strictEq (.vStr r.id) (getField expected "matched_rule"))) = false →
        generateReason expected actual rules
          = "Expected rule \x27" ++ jsToString (getField expected "matched_rule")
            ++ "\x27 to match, but \x27" ++ actualId ++ "\x27 matched instead.")
    ∧ (∀ (expected : Obj) (actual : EvaluationResult) (rules : List Rule),
        (strictEq (getField expected "matched_rule") .vUndefined
          || eqMatchedRule (getField expected "matched_rule") actual.matched_rule) = true →
        generateReason expected actual rules
          = (firstOutputMismatch (expected.filter fun kv => kv.1 != "matched_rule")
              actual.output).getD "Unknown mismatch")
    ∧ (runTest tieBreakTest [ruleA, ruleB] "f").reason
        = some ("Expected rule \x27A\x27 to match, but \x27B\x27 matched instead.") := by
  refine ⟨?_, ?_, ?_, ?_, ?_, ?_⟩
  · intro test rules file
    constructor
    · intro h; rw [runTest_reason_eq, h]; simp
    · intro h; rw [runTest_reason_eq, h]; simp
  · intro expected actual rules h1 h2 h3
    rw [h3] at h2
    simp [generateReason, h1, h2, h3]
  · intro expected actual rules actualId h1 h2 h3 h4
    rw [h3] at h2
    simp [generateReason, h1, h2, h3, h4]
  · intro expected actual rules actualId h1 h2 h3 h4
    rw [h3] at h2
    simp [generateReason, h1, h2, h3, h4]
  · intro expected actual rules h
    have hcond : (!(strictEq (getField expected "matched_rule") .vUndefined)
        && !(eqMatchedRule (getField expected "matched_rule") actual.matched_rule)) = false := by
      rcases Bool.or_eq_true_iff.mp h with h1 | h1 <;> simp [h1]
    simp only [generateReason, hcond, Bool.false_eq_true, if_false]
    rcases hm : firstOutputMismatch
        (expected.filter fun kv => kv.1 != "matched_rule") actual.output with - | r <;>
      simp [hm]
  · simp [runTest, tieBreakTest, ruleA, ruleB, truthy, getField, evaluate,
      matchConditions, matchCondition, emptyCondition, strictEq, eqMatchedRule,
      generateReason, jsToString, List.findIdx]
    decide

/-- C4 witness: `reason_priority_order` applied concretely — the
no-match case at an expectation naming rule X with a null actual result,
and the ordering case with the catch-all B listed before A. -/
theorem reason_priority_order_witness :
    generateReason [("matched_rule", .vStr "X")] ⟨none, []⟩ []
      = "No rule matched the input. Check your rule conditions."
    ∧ generateReason [("matched_rule", .vStr "A")] ⟨some "B", []⟩ [ruleB, ruleA]
      = "Rule \x27B\x27 matched before \x27A\x27. Check rule ordering." := by
  constructor
  · exact reason_priority_order.2.1 [("matched_rule", .vStr "X")] ⟨none, []⟩ []
      (by rfl) (by rfl) rfl
  · have h := reason_priority_order.2.2.1 [("matched_rule", .vStr "A")]
      ⟨some "B", []⟩ [ruleB, ruleA] "B" (by rfl) (by rfl) rfl (by decide)
    simpa [jsToString, getField] using h

/-- Own-property entries, modelling the `Object.entries(conditions)`
call of `matchConditions` on an arbitrary runtime value:
`Object.entries` throws a TypeError on null and undefined, yields no
entries for booleans and numbers, the indexed one-character strings for
a string, the indexed elements for an array, and the fields for an
object. -/
def condEntries : Value → Except String (List (String × Value))
  | .vNull => .error "TypeError"
  | .vUndefined => .error "TypeError"
  | .vBool _ => .ok []
  | .vNum _ => .ok []
  | .vStr s => .ok (((List.range s.length).zip s.toList).map
      fun p => (toString p.1, .vStr (String.singleton p.2)))
  | .vArr xs => .ok (((List.range xs.length).zip xs).map
      fun p => (toString p.1, p.2))
  | .vObj fs => .ok fs

/-- The JavaScript relational `in` operator (`k in v`), as used by the
reserved-key tests of `matchConditions`: it throws a TypeError when the
right operand is not an object; own-key membership otherwise (the
reserved keys queried here never collide with array index keys or
prototype properties). -/
def hasKeyJs : Value → String → Except String Bool
  | .vArr xs, k => .ok ((keysOf (.vArr xs)).contains k)
  | .vObj fs, k => .ok ((keysOf (.vObj fs)).contains k)
  | _, _ => .error "TypeError"

/-- `isComparisonOperator` (`evaluator.ts` lines 139-143) on a runtime
value: a non-null object at least one of whose own keys is one of the
four bound keys. -/
def isComparisonOperatorV (v : Value) : Bool :=
  match v with
  | .vArr _ | .vObj _ =>
      (keysOf v).any fun k => k == "gte" || k == "lte" || k == "gt" || k == "lt"
  | _ => false

/-- `isInOperator` (`evaluator.ts` lines 145-148) on a runtime value: a
non-null object carrying an `in` key whose value is an array. -/
def isInOperatorV (v : Value) : Bool :=
  match v with
  | .vArr _ | .vObj _ =>
      ((keysOf v).contains "in")
        && (match getKey v "in" with | .vArr _ => true | _ => false)
  | _ => false

/-- The numeric bound read from a key of a comparison-operator object
(`operator.gte` and friends); bounds are numbers by the
`ComparisonOperator` interface of `types.ts`, and an absent key reads
as undefined, which the `!== undefined` guards of `compareValue` skip. -/
def getBound (v : Value) (k : String) : Option Int :=
  match getKey v k with
  | .vNum n => some n
  | _ => none

/-- `matchCondition` (`evaluator.ts` lines 165-181) as executed on
runtime values: comparison-operator dispatch first, then `in` dispatch,
then exact match under strict equality (an unrecognized compound
constraint falls through to reference equality, which fails closed). -/
def matchConditionV (condition : Value) (actual : Value) : Bool :=
  if isComparisonOperatorV condition then
    compareValue actual
      ⟨getBound condition "gte", getBound condition "lte",
        getBound condition "gt", getBound condition "lt"⟩
  else if isInOperatorV condition then
    match getKey condition "in" with
    | .vArr elems => checkInOperator actual elems
    | _ => false
  else
    strictEq actual condition

/-- A successful lookup stores its result (under some key) in the list. -/
theorem exists_key_of_lookup_eq_some {l : List (String × Value)} {k : String}
    {v : Value} (h : l.lookup k = some v) : ∃ a, (a, v) ∈ l := by
  induction l with
  | nil => simp [List.lookup] at h
  | cons e t ih =>
    rcases e with ⟨a, b⟩
    rw [List.lookup] at h
    cases hk : k == a
    · simp only [hk] at h
      rcases ih h with ⟨a2, ha2⟩
      exact ⟨a2, List.mem_cons_of_mem _ ha2⟩
    · simp only [hk, Option.some.injEq] at h
      exact ⟨a, by simp [h]⟩

/-- A value stored in an object or array is structurally smaller than
the compound value, so recursing into an `all`/`any` array read off a
condition object terminates. -/
theorem sizeOf_getKey_arr_lt {v : Value} {k : String} {cs : List Value}
    (h : getKey v k = .vArr cs) : sizeOf cs < sizeOf v := by
  cases v with
  | vObj fs =>
    rcases hlk : fs.lookup k with - | x
    · simp [getKey, hlk] at h
    · have hx : Value.vArr cs = x := by
        have : getKey (.vObj fs) k = x := by simp [getKey, hlk]
        rw [this] at h; exact h.symm
      subst hx
      rcases exists_key_of_lookup_eq_some hlk with ⟨a, ha⟩
      have h1 : sizeOf (a, Value.vArr cs) < sizeOf fs := List.sizeOf_lt_of_mem ha
      simp only [Prod.mk.sizeOf_spec, Value.vArr.sizeOf_spec] at h1
      simp only [Value.vObj.sizeOf_spec]
      omega
  | vArr xs =>
    rcases hf : (List.range xs.length).find? (fun i => toString i == k) with - | i
    · simp [getKey, hf] at h
    · have h2 : getKey (.vArr xs) k = xs.getD i .vUndefined := by simp [getKey, hf]
      rw [h2] at h
      have hilt : i < xs.length :=
        List.mem_range.mp (List.mem_of_find?_eq_some hf)
      rw [List.getD_eq_getElem?_getD, List.getElem?_eq_getElem hilt] at h
      simp only [Option.getD_some] at h
      have hmem : Value.vArr cs ∈ xs := h ▸ List.getElem_mem hilt
      have h1 : sizeOf (Value.vArr cs) < sizeOf xs := List.sizeOf_lt_of_mem hmem
      simp only [Value.vArr.sizeOf_spec] at h1
      simp only [Value.vArr.sizeOf_spec]
      omega
  | vUndefined => simp [getKey] at h
  | vNull => simp [getKey] at h
  | vBool b => simp [getKey] at h
  | vNum n => simp [getKey] at h
  | vStr s => simp [getKey] at h

mutual

/-- `matchConditions` (`evaluator.ts` lines 183-212) as executed by the
JavaScript runtime on an arbitrary condition value: enumerate the own
entries (throwing where `Object.entries` throws), require every
non-reserved field constraint to match (returning false before the
reserved keys are probed), then probe `all` and `any` with the `in`
operator — which throws a TypeError on a primitive — and recurse into
whichever of them holds an array. -/
def matchConditionsV (cond : Value) (input : Obj) : Except String Bool := do
  let entries ← condEntries cond
  if !((entries.filter fun e => !(e.1 == "all") && !(e.1 == "any")).all
      fun e => matchConditionV e.2 (getField input e.1)) then
    return false
  let hasAll ← hasKeyJs cond "all"
  let allOk ←
    if hasAll then
      match h : getKey cond "all" with
      | .vArr cs => everyV cs input
      | _ => pure true
    else
      pure true
  if !allOk then
    return false
  let hasAny ← hasKeyJs cond "any"
  let anyOk ←
    if hasAny then
      match h : getKey cond "any" with
      | .vArr cs => someV cs input
      | _ => pure true
    else
      pure true
  if !anyOk then
    return false
  return true
termination_by sizeOf cond
decreasing_by
  all_goals exact sizeOf_getKey_arr_lt (by assumption)

/-- `conditions.all.every((c) => matchConditions(c, input))` with
JavaScript short-circuiting: a false result stops the loop before later
elements can throw. -/
def everyV : List Value → Obj → Except String Bool
  | [], _ => .ok true
  | c :: cs, input => do
      let b ← matchConditionsV c input
      if b then everyV cs input else .ok false
termination_by cs _ => sizeOf cs
decreasing_by
  all_goals simp_wf
  all_goals omega

/-- `conditions.any.some((c) => matchConditions(c, input))` with
JavaScript short-circuiting: a true result stops the loop before later
elements can throw. -/
def someV : List Value → Obj → Except String Bool
  | [], _ => .ok false
  | c :: cs, input => do
      let b ← matchConditionsV c input
      if b then .ok true else someV cs input
termination_by cs _ => sizeOf cs
decreasing_by
  all_goals simp_wf
  all_goals omega

end

/-- Primitive (non-compound) runtime values: what YAML scalars parse
to. -/
def isPrimitive : Value → Bool
  | .vNull | .vBool _ | .vNum _ | .vStr _ => true
  | _ => false

/-- The entry a present numeric bound contributes to the runtime
comparison-operator object. -/
def optBound (k : String) : Option Int → List (String × Value)
  | some n => [(k, .vNum n)]
  | none => []

/-- The runtime (parsed-YAML) representation of a typed condition value:
a scalar is itself; an operator object carries exactly its present bound
keys; set membership is the `in`-keyed object. -/
def encodeCondValue : ConditionValue → Value
  | .scalar v => v
  | .cmp op => .vObj (optBound "gte" op.gte ++ optBound "lte" op.lte
      ++ optBound "gt" op.gt ++ optBound "lt" op.lt)
  | .inOp elems => .vObj [("in", .vArr elems)]

mutual

/-- The runtime representation of a typed condition tree: the plain
fields in order, then the `all` entry, then the `any` entry. -/
def encodeCondition : Condition → Value
  | .mk fields allC anyC =>
      .vObj ((fields.map fun kv => (kv.1, encodeCondValue kv.2))
        ++ (match allC with
            | some cs => [("all", .vArr (encodeList cs))]
            | none => [])
        ++ (match anyC with
            | some cs => [("any", .vArr (encodeList cs))]
            | none => []))

/-- Runtime representations of a list of condition trees. -/
def encodeList : List Condition → List Value
  | [] => []
  | c :: cs => encodeCondition c :: encodeList cs

end

/-- A structurally valid condition value: scalar constraints are
primitive YAML values, operator objects carry at least one bound key
(which is what `isComparisonOperator` recognises). -/
def validCondValue : ConditionValue → Bool
  | .scalar v => isPrimitive v
  | .cmp op => op.hasBound
  | .inOp _ => true

mutual

/-- A structurally valid condition tree, as the loader and the
TypeScript types produce: plain field names avoid the reserved `all` and
`any` keys, and every constraint value is valid. -/
def validCondition : Condition → Bool
  | .mk fields allC anyC =>
      (fields.all fun kv =>
        !(kv.1 == "all") && !(kv.1 == "any") && validCondValue kv.2)
        && (match allC with | some cs => validList cs | none => true)
        && (match anyC with | some cs => validList cs | none => true)

/-- Validity of every tree in a sequence. -/
def validList : List Condition → Bool
  | [] => true
  | c :: cs => validCondition c && validList cs

end

/-- A primitive value is not a comparison-operator object. -/
theorem isCmp_of_primitive {v : Value} (h : isPrimitive v = true) :
    isComparisonOperatorV v = false := by
  cases v <;> simp_all [isPrimitive, isComparisonOperatorV]

/-- A primitive value is not an `in` operator object. -/
theorem isIn_of_primitive {v : Value} (h : isPrimitive v = true) :
    isInOperatorV v = false := by
  cases v <;> simp_all [isPrimitive, isInOperatorV]

/-- The bounds read back from the runtime encoding of an operator object
are the declared bounds. -/
theorem getBound_encode_cmp (op : ComparisonOperator) :
    getBound (encodeCondValue (.cmp op)) "gte" = op.gte
    ∧ getBound (encodeCondValue (.cmp op)) "lte" = op.lte
    ∧ getBound (encodeCondValue (.cmp op)) "gt" = op.gt
    ∧ getBound (encodeCondValue (.cmp op)) "lt" = op.lt := by
  rcases op with ⟨g, l, g0, l0⟩
  cases g <;> cases l <;> cases g0 <;> cases l0 <;>
    simp [encodeCondValue, optBound, getBound, getKey, List.lookup]

/-- The runtime encoding of an operator object with at least one bound
is recognised by `isComparisonOperator`. -/
theorem isCmp_encode_cmp (op : ComparisonOperator) (h : op.hasBound = true) :
    isComparisonOperatorV (encodeCondValue (.cmp op)) = true := by
  rcases op with ⟨g, l, g0, l0⟩
  cases g <;> cases l <;> cases g0 <;> cases l0 <;>
    simp_all [encodeCondValue, optBound, isComparisonOperatorV, keysOf,
      ComparisonOperator.hasBound]

/-- The runtime `matchCondition` agrees with the typed `matchCondition`
on every valid constraint value. -/
theorem matchConditionV_encode (cv : ConditionValue) (actual : Value)
    (h : validCondValue cv = true) :
    matchConditionV (encodeCondValue cv) actual = matchCondition cv actual := by
  rcases cv with v | op | elems
  · rw [validCondValue] at h
    simp [matchConditionV, isCmp_of_primitive h, isIn_of_primitive h,
      encodeCondValue, matchCondition]
  · rw [validCondValue] at h
    have hb := getBound_encode_cmp op
    simp only [matchConditionV, isCmp_encode_cmp op h, if_true,
      hb.1, hb.2.1, hb.2.2.1, hb.2.2.2, matchCondition]
  · simp [matchConditionV, encodeCondValue, isComparisonOperatorV,
      isInOperatorV, keysOf, getKey, List.lookup, matchCondition]

/-- Unfolding of the runtime encoding at a constructor (stated once,
since the well-founded equations of `encodeCondition` rewrite only
through `eq_def`). -/
theorem encodeCondition_mk (fields : List (String × ConditionValue))
    (allC anyC : Option (List Condition)) :
    encodeCondition (.mk fields allC anyC)
      = .vObj ((fields.map fun kv => (kv.1, encodeCondValue kv.2))
        ++ (match allC with
            | some cs => [("all", .vArr (encodeList cs))]
            | none => [])
        ++ (match anyC with
            | some cs => [("any", .vArr (encodeList cs))]
            | none => [])) := by
  rw [encodeCondition.eq_def]

/-- Validity of a sequence is validity of each member. -/
theorem validList_iff {cs : List Condition} :
    validList cs = true ↔ ∀ c ∈ cs, validCondition c = true := by
  induction cs with
  | nil => simp [validList]
  | cons c t ih => simp [validList, Bool.and_eq_true, ih]

/-- `List.contains` skips a prefix none of whose elements matches. -/
theorem contains_append_of_ne {l1 l2 : List String} {k : String}
    (h : ∀ a ∈ l1, (k == a) = false) :
    (l1 ++ l2).contains k = l2.contains k := by
  induction l1 with
  | nil => simp
  | cons a t ih =>
    rw [List.cons_append, List.contains_cons, h a (by simp),
      ih fun x hx => h x (by simp [hx])]
    simp

/-- `List.lookup` skips a prefix none of whose keys matches. -/
theorem lookup_append_of_ne {l1 l2 : List (String × Value)} {k : String}
    (h : ∀ e ∈ l1, (k == e.1) = false) :
    List.lookup k (l1 ++ l2) = List.lookup k l2 := by
  induction l1 with
  | nil => simp
  | cons e t ih =>
    rcases e with ⟨a, b⟩
    rw [List.cons_append, List.lookup]
    have ha : (k == a) = false := h (a, b) (by simp)
    rw [ha]
    exact ih fun x hx => h x (by simp [hx])

/-- The reserved-key filter of the field loop keeps exactly the encoded
plain fields (whose names avoid the reserved keys) and drops the encoded
`all`/`any` entries. -/
theorem filter_encode_fields (fields : List (String × ConditionValue))
    (allC anyC : Option (List Condition))
    (hf : ∀ kv ∈ fields, kv.1 ≠ "all" ∧ kv.1 ≠ "any") :
    (((fields.map fun kv => (kv.1, encodeCondValue kv.2))
        ++ (match allC with
            | some cs => [("all", .vArr (encodeList cs))]
            | none => [])
        ++ (match anyC with
            | some cs => [("any", .vArr (encodeList cs))]
            | none => [])).filter
      fun e => !(e.1 == "all") && !(e.1 == "any"))
      = fields.map fun kv => (kv.1, encodeCondValue kv.2) := by
  have hmap : ((fields.map fun kv => (kv.1, encodeCondValue kv.2)).filter
      fun e => !(e.1 == "all") && !(e.1 == "any"))
      = fields.map fun kv => (kv.1, encodeCondValue kv.2) := by
    rw [List.filter_eq_self]
    intro e he
    rcases List.mem_map.mp he with ⟨kv, hkv, rfl⟩
    simp [(hf kv hkv).1, (hf kv hkv).2]
  rcases allC with - | cs <;> rcases anyC with - | cs2 <;>
    simp [List.filter_append, hmap]

/-- The field loop over the encoded fields computes the typed field
conjunction. -/
theorem all_fields_encode (fields : List (String × ConditionValue))
    (input : Obj) (hf : ∀ kv ∈ fields, validCondValue kv.2 = true) :
    ((fields.map fun kv => (kv.1, encodeCondValue kv.2)).all
        fun e => matchConditionV e.2 (getField input e.1))
      = fields.all fun kv => matchCondition kv.2 (getField input kv.1) := by
  induction fields with
  | nil => simp
  | cons kv t ih =>
    simp only [List.map_cons, List.all_cons]
    rw [matchConditionV_encode kv.2 _ (hf kv (by simp)),
      ih fun x hx => hf x (by simp [hx])]

/-- The `in`-probe for the reserved `all` key on an encoded tree answers
whether the tree declares an `all` sequence. -/
theorem map_fst_encode (fields : List (String × ConditionValue)) :
    List.map Prod.fst (fields.map fun kv => (kv.1, encodeCondValue kv.2))
      = fields.map Prod.fst := by
  induction fields with
  | nil => simp
  | cons kv t ih => simp [ih]

theorem hasKeyJs_encode_all (fields : List (String × ConditionValue))
    (allC anyC : Option (List Condition))
    (hf : ∀ kv ∈ fields, kv.1 ≠ "all") :
    hasKeyJs (encodeCondition (.mk fields allC anyC)) "all" = .ok allC.isSome := by
  have h1 : ∀ a ∈ fields.map Prod.fst, (("all" : String) == a) = false := by
    intro a ha
    obtain ⟨kv, hkv, heq⟩ := List.mem_map.mp ha
    subst heq
    exact beq_eq_false_iff_ne.mpr (Ne.symm (hf kv hkv))
  rw [encodeCondition_mk, hasKeyJs]
  congr 1
  rw [keysOf, List.map_append, List.map_append, map_fst_encode,
    List.append_assoc, contains_append_of_ne h1]
  rcases allC with - | cs <;> rcases anyC with - | cs2 <;>
    simp [List.contains_cons]

/-- The `in`-probe for the reserved `any` key on an encoded tree answers
whether the tree declares an `any` sequence. -/
theorem hasKeyJs_encode_any (fields : List (String × ConditionValue))
    (allC anyC : Option (List Condition))
    (hf : ∀ kv ∈ fields, kv.1 ≠ "any") :
    hasKeyJs (encodeCondition (.mk fields allC anyC)) "any" = .ok anyC.isSome := by
  have h1 : ∀ a ∈ fields.map Prod.fst, (("any" : String) == a) = false := by
    intro a ha
    obtain ⟨kv, hkv, heq⟩ := List.mem_map.mp ha
    subst heq
    exact beq_eq_false_iff_ne.mpr (Ne.symm (hf kv hkv))
  rw [encodeCondition_mk, hasKeyJs]
  congr 1
  rw [keysOf, List.map_append, List.map_append, map_fst_encode,
    List.append_assoc, contains_append_of_ne h1]
  rcases allC with - | cs <;> rcases anyC with - | cs2 <;>
    simp [List.contains_cons]

/-- Reading the reserved `all` key off an encoded tree that declares an
`all` sequence yields the encoded sequence. -/
theorem getKey_encode_all (fields : List (String × ConditionValue))
    (cs : List Condition) (anyC : Option (List Condition))
    (hf : ∀ kv ∈ fields, kv.1 ≠ "all") :
    getKey (encodeCondition (.mk fields (some cs) anyC)) "all"
      = .vArr (encodeList cs) := by
  have h1 : ∀ e ∈ fields.map fun kv => (kv.1, encodeCondValue kv.2),
      (("all" : String) == e.1) = false := by
    intro e he
    obtain ⟨kv, hkv, heq⟩ := List.mem_map.mp he
    subst heq
    exact beq_eq_false_iff_ne.mpr (Ne.symm (hf kv hkv))
  rw [encodeCondition_mk, getKey]
  rw [List.append_assoc, lookup_append_of_ne h1]
  simp [List.lookup]

/-- Reading the reserved `any` key off an encoded tree that declares an
`any` sequence yields the encoded sequence. -/
theorem getKey_encode_any (fields : List (String × ConditionValue))
    (allC : Option (List Condition)) (cs : List Condition)
    (hf : ∀ kv ∈ fields, kv.1 ≠ "any") :
    getKey (encodeCondition (.mk fields allC (some cs))) "any"
      = .vArr (encodeList cs) := by
  have h1 : ∀ e ∈ fields.map fun kv => (kv.1, encodeCondValue kv.2),
      (("any" : String) == e.1) = false := by
    intro e he
    obtain ⟨kv, hkv, heq⟩ := List.mem_map.mp he
    subst heq
    exact beq_eq_false_iff_ne.mpr (Ne.symm (hf kv hkv))
  rw [encodeCondition_mk, getKey]
  rw [List.append_assoc, lookup_append_of_ne h1]
  rcases allC with - | cs2 <;> simp [List.lookup]

/-- The runtime `every` loop over an encoded sequence computes the typed
`all` conjunction, given member-wise agreement. -/
theorem everyV_encode (cs : List Condition) (input : Obj)
    (hall : ∀ c ∈ cs, matchConditionsV (encodeCondition c) input
      = .ok (matchConditions c input)) :
    everyV (encodeList cs) input = .ok (matchAll cs input) := by
  induction cs with
  | nil => simp [encodeList, everyV, matchAll]
  | cons c t ih =>
    rw [encodeList, everyV, matchAll]
    rw [hall c (by simp)]
    cases h : matchConditions c input <;>
      simp [Bind.bind, Except.bind, ih fun x hx => hall x (by simp [hx])]

/-- The runtime `some` loop over an encoded sequence computes the typed
`any` disjunction, given member-wise agreement. -/
theorem someV_encode (cs : List Condition) (input : Obj)
    (hall : ∀ c ∈ cs, matchConditionsV (encodeCondition c) input
      = .ok (matchConditions c input)) :
    someV (encodeList cs) input = .ok (matchAny cs input) := by
  induction cs with
  | nil => simp [encodeList, someV, matchAny]
  | cons c t ih =>
    rw [encodeList, someV, matchAny]
    rw [hall c (by simp)]
    cases h : matchConditions c input <;>
      simp [Bind.bind, Except.bind, ih fun x hx => hall x (by simp [hx])]

/-- Unfolding of validity at a constructor. -/
theorem validCondition_mk (fields : List (String × ConditionValue))
    (allC anyC : Option (List Condition)) :
    validCondition (.mk fields allC anyC)
      = ((fields.all fun kv =>
            !(kv.1 == "all") && !(kv.1 == "any") && validCondValue kv.2)
        && (match allC with | some cs => validList cs | none => true)
        && (match anyC with | some cs => validList cs | none => true)) := by
  rw [validCondition.eq_def]

/-- Unfolding of the typed matcher at a constructor. -/
theorem matchConditions_mk (fields : List (String × ConditionValue))
    (allC anyC : Option (List Condition)) (input : Obj) :
    matchConditions (.mk fields allC anyC) input
      = ((fields.all fun fc => matchCondition fc.2 (getField input fc.1))
        && (match allC with | some cs => matchAll cs input | none => true)
        && (match anyC with | some cs => matchAny cs input | none => true)) := by
  rw [matchConditions.eq_def]

/-- The entries enumerated for an encoded condition tree. -/
theorem condEntries_encode (fields : List (String × ConditionValue))
    (allC anyC : Option (List Condition)) :
    condEntries (encodeCondition (.mk fields allC anyC))
      = .ok ((fields.map fun kv => (kv.1, encodeCondValue kv.2))
        ++ (match allC with
            | some cs => [("all", .vArr (encodeList cs))]
            | none => [])
        ++ (match anyC with
            | some cs => [("any", .vArr (encodeList cs))]
            | none => [])) := by
  rw [encodeCondition_mk]
  rfl

/-- `pure` in the `Except String` monad is the ok constructor. -/
theorem pure_eq_ok {α : Type} (x : α) : (pure x : Except String α) = .ok x := rfl

/-- The runtime matcher agrees with the typed matcher on the encoding of
every valid condition tree, by strong induction on tree size. -/
theorem agreeAux : ∀ (n : Nat) (c : Condition) (input : Obj), sizeOf c ≤ n →
    validCondition c = true →
    matchConditionsV (encodeCondition c) input = .ok (matchConditions c input) := by
  intro n
  induction n with
  | zero =>
    rintro ⟨fields, allC, anyC⟩ input hle -
    exfalso
    simp only [Condition.mk.sizeOf_spec] at hle
    omega
  | succ n ih =>
    rintro ⟨fields, allC, anyC⟩ input hle hv
    rw [validCondition_mk] at hv
    simp only [Bool.and_eq_true] at hv
    obtain ⟨⟨hfv, hallv⟩, hanyv⟩ := hv
    have hf : ∀ kv ∈ fields,
        kv.1 ≠ "all" ∧ kv.1 ≠ "any" ∧ validCondValue kv.2 = true := by
      intro kv hkv
      have h := List.all_eq_true.mp hfv kv hkv
      simpa only [Bool.and_eq_true, Bool.not_eq_true', beq_eq_false_iff_ne,
        and_assoc] using h
    have hfilter := filter_encode_fields fields allC anyC
      fun kv hkv => ⟨(hf kv hkv).1, (hf kv hkv).2.1⟩
    have hfields := all_fields_encode fields input fun kv hkv => (hf kv hkv).2.2
    have hkall := hasKeyJs_encode_all fields allC anyC fun kv hkv => (hf kv hkv).1
    have hkany := hasKeyJs_encode_any fields allC anyC fun kv hkv => (hf kv hkv).2.1
    rw [matchConditionsV.eq_def, condEntries_encode]
    simp only [Bind.bind, Except.bind]
    rw [hfilter, hfields]
    rw [matchConditions_mk]
    cases hFB : (fields.all fun fc => matchCondition fc.2 (getField input fc.1)) with
    | false => rfl
    | true =>
      simp only [Bool.not_true, Bool.false_eq_true, if_false]
      rw [hkall, hkany]
      simp only [Bool.true_and, pure_eq_ok]
      simp only [Condition.mk.sizeOf_spec] at hle
      rcases allC with - | csAll
      · simp only [Option.isSome_none, Bool.false_eq_true, if_false,
          Bool.not_true, Bool.not_false, Bool.true_eq_false]
        rcases anyC with - | csAny
        · simp
        · simp only [Option.isSome_some, if_true]
          have hIHany : ∀ c ∈ csAny, matchConditionsV (encodeCondition c) input
              = .ok (matchConditions c input) := by
            intro c hc
            have hs := List.sizeOf_lt_of_mem hc
            simp only [Option.some.sizeOf_spec] at hle
            refine ih c input (by omega) ?_
            exact validList_iff.mp (by simpa using hanyv) c hc
          have hg := getKey_encode_any fields none csAny
            fun kv hkv => (hf kv hkv).2.1
          rw [hg]
          simp only [someV_encode csAny input hIHany]
          cases hMA : matchAny csAny input <;> simp
      · simp only [Option.isSome_some, if_true]
        have hIHall : ∀ c ∈ csAll, matchConditionsV (encodeCondition c) input
            = .ok (matchConditions c input) := by
          intro c hc
          have hs := List.sizeOf_lt_of_mem hc
          simp only [Option.some.sizeOf_spec] at hle
          refine ih c input (by omega) ?_
          exact validList_iff.mp (by simpa using hallv) c hc
        have hgall := getKey_encode_all fields csAll anyC
          fun kv hkv => (hf kv hkv).1
        rw [hgall]
        simp only [everyV_encode csAll input hIHall]
        cases hMA : matchAll csAll input with
        | false => simp
        | true =>
          simp only [Bool.not_true, Bool.false_eq_true, if_false,
            Bool.and_true]
          rcases anyC with - | csAny
          · simp
          · simp only [Option.isSome_some, if_true]
            have hIHany : ∀ c ∈ csAny, matchConditionsV (encodeCondition c) input
                = .ok (matchConditions c input) := by
              intro c hc
              have hs := List.sizeOf_lt_of_mem hc
              simp only [Option.some.sizeOf_spec] at hle
              refine ih c input (by omega) ?_
              exact validList_iff.mp (by simpa using hanyv) c hc
            have hg := getKey_encode_any fields (some csAll) csAny
              fun kv hkv => (hf kv hkv).2.1
            rw [hg]
            simp only [someV_encode csAny input hIHany]
            cases hMA2 : matchAny csAny input <;> simp

/-- C9 counterexample: a condition whose `any` sequence contains the
non-tree entry `5` makes the matcher throw — the recursive call reaches
the JavaScript expression `"all" in 5`, and the `in` operator on a
primitive raises a TypeError — so the matcher is not total on malformed
shapes, where the claim says it never throws. -/
theorem malformed_any_entry_throws :
    matchConditionsV (.vObj [("any", .vArr [.vNum 5])]) [] = .error "TypeError" := by
  simp [matchConditionsV, someV, condEntries, hasKeyJs, keysOf, getKey,
    matchConditionV, Bind.bind, Except.bind, pure, Except.pure, List.lookup,
    Option.getD]

/-- C9 amended: on every structurally valid condition tree (plain field
names avoiding the reserved keys, primitive scalars, operator objects
with at least one bound) the runtime matcher is total — it never throws,
and computes exactly the typed matcher semantics; moreover an
unrecognized compound constraint shape fails closed: a plain object that
is neither a comparison operator nor an `in` operator matches nothing. -/
theorem matcher_total_on_valid_trees :
    (∀ (c : Condition) (input : Obj), validCondition c = true →
      matchConditionsV (encodeCondition c) input = .ok (matchConditions c input))
    ∧ (∀ (fs : List (String × Value)) (actual : Value),
        isComparisonOperatorV (.vObj fs) = false →
        isInOperatorV (.vObj fs) = false →
        matchConditionV (.vObj fs) actual = false) := by
  constructor
  · intro c input h
    exact agreeAux (sizeOf c) c input le_rfl h
  · intro fs actual h1 h2
    rw [matchConditionV, h1, h2]
    simp only [Bool.false_eq_true, if_false]
    cases actual <;> simp [strictEq]

/-- C9 witness: `matcher_total_on_valid_trees` applied to the concrete
valid tree `{tier: "vip", any: [{q: {gte: 10}}]}` on an input it
matches, and the fail-closed clause at the unrecognized constraint
`{foo: 1}`. -/
theorem matcher_total_on_valid_trees_witness :
    matchConditionsV
        (encodeCondition (.mk [("tier", .scalar (.vStr "vip"))] none
          (some [.mk [("q", .cmp ⟨some 10, none, none, none⟩)] none none])))
        [("tier", .vStr "vip"), ("q", .vNum 42)]
      = .ok true
    ∧ matchConditionV (.vObj [("foo", .vNum 1)]) (.vNum 1) = false := by
  constructor
  · have h := matcher_total_on_valid_trees.1
      (.mk [("tier", .scalar (.vStr "vip"))] none
        (some [.mk [("q", .cmp ⟨some 10, none, none, none⟩)] none none]))
      [("tier", .vStr "vip"), ("q", .vNum 42)]
      (by simp [validCondition, validList, validCondValue, isPrimitive,
        ComparisonOperator.hasBound])
    rw [h]
    simp [matchConditions, matchAny, matchCondition, compareValue, getField,
      strictEq, List.lookup]
  · exact matcher_total_on_valid_trees.2 [("foo", .vNum 1)] (.vNum 1)
      (by simp [isComparisonOperatorV, keysOf])
      (by simp [isInOperatorV, keysOf])

end LogicRepo
